import Mathlib

set_option maxRecDepth 100000

/-!
Verification of the NTFS raw-volume reader of project-squirrel
(`src/ntfs/content.rs`, `src/ntfs/metadata.rs`, `src/ntfs/file_system.rs`)
against its natural-language specification.

The Rust code is shallowly embedded: byte streams are `List Nat` (each entry a
`u8` value), in-memory cursors and the buffered volume are explicit state
records, fallible code returns `Option`/`Outcome`.  A Rust panic (failed
`assert!`, failed `unwrap`, or arithmetic underflow, which panics for the
debug-built binaries this crate ships as) is modelled as `Option.none` or
`Outcome.crash`; a clean `Err` return is `Outcome.ioError`.
-/

/-- Checked `u64`/`usize` subtraction: Rust `a - b` panics on underflow (`none`). -/
def sub? (a b : Nat) : Option Nat :=
  if b ≤ a then some (a - b) else none

/-- `u64::try_from(i)` for a signed value: panics (`none`) when `i` is negative. -/
def intToNat? (i : Int) : Option Nat :=
  if 0 ≤ i then some i.toNat else none

/-- Outcome of running Rust code that can either return `Err` or panic. -/
inductive Outcome (α : Type) where
  | ok : α → Outcome α
  | ioError : Outcome α
  /-- a Rust panic: failed assertion, failed `unwrap`, arithmetic underflow -/
  | crash : Outcome α
deriving DecidableEq, Repr

/-- `std::io::SeekFrom`. -/
inductive SeekFrom where
  | start : Nat → SeekFrom
  | current : Int → SeekFrom
  | fromEnd : Int → SeekFrom
deriving DecidableEq, Repr

/-- `DataRun` (src/ntfs/content.rs): one extent of a non-resident attribute,
all quantities in bytes. -/
structure DataRun where
  offset : Nat
  virt_offset : Nat
  len : Nat
deriving DecidableEq, Repr

/-- Sum of the byte lengths of a run list. -/
def sumLens (runs : List DataRun) : Nat := (runs.map (·.len)).sum

/-- The runs are contiguous in virtual order starting at `v`:
`runs[0].virt_offset = v` and `virt_offset[i+1] = virt_offset[i] + len[i]`. -/
def chainedB : Nat → List DataRun → Bool
  | _, [] => true
  | v, dr :: rest => (dr.virt_offset == v) && chainedB (v + dr.len) rest

/-- Every run's physical extent lies inside a device of `devLen` bytes. -/
def coveredB (devLen : Nat) (runs : List DataRun) : Bool :=
  runs.all fun dr => decide (dr.offset + dr.len ≤ devLen)

/-- Loop body of `load_runs`: attach cumulative virtual offsets starting at `v`;
returns the built runs together with the final value of the accumulator. -/
def buildRunsAux : List (Nat × Nat) → Nat → List DataRun × Nat
  | [], v => ([], v)
  | (o, l) :: rest, v =>
    let (rs, v') := buildRunsAux rest (v + l)
    (⟨o, v, l⟩ :: rs, v')

/-- `load_runs` (src/ntfs/content.rs): attach virtual offsets to the raw
`(offset, len)` pairs and trim the final run by the cluster-granularity slack
`Σ len - size`.  `none` models the panics of the source: `virt_offset - size`
underflows when the runs undershoot `size`, `runs.len() - 1` underflows when
the list is empty, and `runs[last_run].len - slack` underflows when the slack
exceeds the final run. -/
def load_runs (pairs : List (Nat × Nat)) (size : Nat) : Option (List DataRun) :=
  match sub? (buildRunsAux pairs 0).2 size with
  | none => none
  | some slack =>
    match (buildRunsAux pairs 0).1.getLast? with
    | none => none
    | some last =>
      match sub? last.len slack with
      | none => none
      | some fixedLen =>
        some ((buildRunsAux pairs 0).1.dropLast ++
          [⟨last.offset, last.virt_offset, fixedLen⟩])

/-- `std::io::Cursor` over in-memory bytes (also stands in for the volume handle
underneath a `RunReader`; reads past the end yield zero bytes, seeks to any
`Start` position succeed, exactly as for a Rust `Cursor`). -/
structure Cursor where
  data : List Nat
  pos : Nat
deriving DecidableEq, Repr

/-- `Cursor::read` limited to `n` bytes: yields `min n remaining` bytes. -/
def cursorRead (c : Cursor) (n : Nat) : List Nat × Cursor :=
  let bytes := (c.data.drop c.pos).take n
  (bytes, { c with pos := c.pos + bytes.length })

/-- `Cursor::seek(SeekFrom::Start x)`: always succeeds, even past the end. -/
def cursorSeekStart (c : Cursor) (x : Nat) : Cursor := { c with pos := x }

/-- `State` (src/ntfs/content.rs): current run index and offset inside it. -/
structure RRState where
  run : Nat
  pos : Nat
deriving DecidableEq, Repr

/-- `RunReader` (src/ntfs/content.rs). -/
structure RunReader where
  volume : Cursor
  state : RRState
  runs : List DataRun
  size : Nat
deriving DecidableEq, Repr

/-- `RunReader::new`: `size` is the sum of the run lengths. -/
def RunReader.new (volume : Cursor) (runs : List DataRun) : RunReader :=
  { volume, state := ⟨0, 0⟩, runs, size := sumLens runs }

/-- `RunReader::state_for`: index of the run containing virtual position `pos`.
The source takes the first run whose `virt_offset` exceeds `pos` (defaulting to
`runs.len()`) and subtracts one; `idx = 0` makes the `usize` subtraction
underflow and the subsequent indexing panic (`none`). -/
def RunReader.state_for (r : RunReader) (pos : Nat) : Option RRState :=
  let idx := r.runs.findIdx fun x => decide (pos < x.virt_offset)
  if idx = 0 then none
  else
    match r.runs.get? (idx - 1) with
    | none => none
    | some dr => (sub? pos dr.virt_offset).map fun p => (⟨idx - 1, p⟩ : RRState)

/-- `RunReader::virt_position` (panics when the run index is out of range). -/
def RunReader.virt_position (r : RunReader) : Option Nat :=
  (r.runs.get? r.state.run).map fun dr => dr.virt_offset + r.state.pos

/-- `RunReader::position`: physical position on the volume. -/
def RunReader.position (r : RunReader) : Option Nat :=
  (r.runs.get? r.state.run).map fun dr => dr.offset + r.state.pos

/-- `RunReader::run_remaining = runs[run].len - pos` (`u64`, panics on underflow). -/
def RunReader.run_remaining (r : RunReader) : Option Nat :=
  match r.runs.get? r.state.run with
  | none => none
  | some dr => sub? dr.len r.state.pos

/-- `RunReader::seek_offset`: target virtual offset for a seek request.
`Current`/`End` panic (`none`) when the target is negative. -/
def RunReader.seek_offset (r : RunReader) (sf : SeekFrom) : Option Nat :=
  match sf with
  | .start x => some x
  | .current x => r.virt_position.bind fun v => intToNat? ((v : Int) + x)
  | .fromEnd x => intToNat? ((r.size : Int) + x)

/-- `RunReader::seek` (`<RunReader as Seek>::seek`): pick the new state with
`state_for`, seek the volume to the new physical position, return the new
virtual position. -/
def rrSeek (r : RunReader) (sf : SeekFrom) : Option (Nat × RunReader) :=
  match r.seek_offset sf with
  | none => none
  | some offset =>
    match r.state_for offset with
    | none => none
    | some st =>
      let r₁ : RunReader := { r with state := st }
      match r₁.position with
      | none => none
      | some phys =>
        let r₂ : RunReader := { r₁ with volume := cursorSeekStart r₁.volume phys }
        r₂.virt_position.map fun v => (v, r₂)

/-- The tail of `RunReader::read` after the optional re-seek: take at most
`run_remaining` bytes from the volume and advance `pos` by the number of
bytes actually obtained. -/
def rrReadCore (r₁ : RunReader) (n : Nat) : Option (List Nat × RunReader) :=
  match r₁.run_remaining with
  | none => none
  | some remaining =>
    let res := cursorRead r₁.volume (min n remaining)
    some (res.1, { r₁ with volume := res.2,
                           state := ⟨r₁.state.run, r₁.state.pos + res.1.length⟩ })

/-- `RunReader::read` (`<RunReader as Read>::read`) with a caller buffer of `n`
bytes: re-seek the device at the start of reading (`vpos = 0`) or when the
current run is exhausted with data left, then read (`rrReadCore`) at most
`run_remaining` bytes from the volume and advance `pos` by the number of
bytes obtained.  The `||` in the source short-circuits, so `run_remaining` is
only evaluated when `vpos ≠ 0`. -/
def rrRead (r : RunReader) (n : Nat) : Option (List Nat × RunReader) :=
  match r.virt_position with
  | none => none
  | some vpos =>
    match (if vpos = 0 then some true
           else r.run_remaining.map fun rem => decide (rem = 0 ∧ vpos < r.size)) with
    | none => none
    | some true =>
      match (rrSeek r (.start vpos)).map (·.2) with
      | none => none
      | some r₁ => rrReadCore r₁ n
    | some false => rrReadCore r n

/-- `Read::read_exact` specialised to `RunReader`: repeatedly `read` until `n`
bytes are gathered; a read that returns zero bytes first is `UnexpectedEof`
(`none`).  `fuel` bounds the number of iterations. -/
def rrReadExact : Nat → RunReader → Nat → Option (List Nat × RunReader)
  | 0, _, _ => none
  | fuel + 1, r, n =>
    if n = 0 then some ([], r)
    else
      match rrRead r n with
      | none => none
      | some (bs, r') =>
        if bs.length = 0 then none
        else
          match rrReadExact fuel r' (n - bs.length) with
          | none => none
          | some (rest, r'') => some (bs ++ rest, r'')

/-- Little-endian bytes to an unsigned value (`u64::from_le_bytes`). -/
def leNat : List Nat → Nat
  | [] => 0
  | b :: rest => b + 256 * leNat rest

/-- Reinterpret a 64-bit pattern as an `i64` (`i64::from_le_bytes`). -/
def toI64 (n : Nat) : Int :=
  if n < 2 ^ 63 then (n : Int) else (n : Int) - 2 ^ 64

/-- The fill byte `read_int_bytes` pads with: `255` when reading a signed value
whose last byte has the high bit set, else `0` (an empty read fills with `0`). -/
def signFill (signed : Bool) (bytes : List Nat) : Nat :=
  if signed then
    match bytes.getLast? with
    | some b => if b.testBit 7 then 255 else 0
    | none => 0
  else 0

/-- `Vec::resize(8, fill)` as used by `read_int_bytes` (never truncates there,
because of the `num_bytes <= 8` assertion). -/
def padTo8 (bytes : List Nat) (fill : Nat) : List Nat :=
  bytes ++ List.replicate (8 - bytes.length) fill

/-- Split off exactly `n` bytes from the front of a stream; `none` when the
stream is too short (the `read_u8` calls of `read_int_bytes` hit EOF). -/
def takeExact : Nat → List Nat → Option (List Nat × List Nat)
  | 0, l => some ([], l)
  | _ + 1, [] => none
  | n + 1, a :: l =>
    match takeExact n l with
    | none => none
    | some (xs, rest) => some (a :: xs, rest)


/-- The loop of `parse_run_list` (src/ntfs/metadata.rs): read a header byte,
split its nibbles into length-field and offset-field byte counts, read the
unsigned run length and the signed (sign-extended) offset delta, accumulate
the signed absolute cluster offset, and emit `(offset, length)` scaled to
bytes.  `.ioError` models a failed `read_u8` (truncated stream), `.crash`
models the panics: the `num_bytes <= 8` assertion of `read_int_bytes` and the
`u64::try_from(offset).unwrap()` on a negative accumulated offset. -/
def parseRunLoop : Nat → List Nat → Int → Nat → Outcome (List (Nat × Nat))
  | _, [], _, _ => .ioError
  | 0, _ :: _, _, _ => .ioError
  | fuel + 1, b :: rest, offset, clusterSize =>
    if b = 0 then .ok []
    else
      let lengthLength := (255 >>> 4) &&& b
      let offsetLength := b >>> 4
      if 8 < lengthLength then .crash
      else
        match takeExact lengthLength rest with
        | none => .ioError
        | some (lenBytes, rest₁) =>
          let length := leNat (padTo8 lenBytes (signFill false lenBytes))
          if 8 < offsetLength then .crash
          else
            match takeExact offsetLength rest₁ with
            | none => .ioError
            | some (offBytes, rest₂) =>
              let relOffset := toI64 (leNat (padTo8 offBytes (signFill true offBytes)))
              let offset' := offset + relOffset
              match intToNat? offset' with
              | none => .crash
              | some o =>
                match parseRunLoop fuel rest₂ offset' clusterSize with
                | .ok pairs => .ok ((o * clusterSize, length * clusterSize) :: pairs)
                | e => e

/-- `parse_run_list` (src/ntfs/metadata.rs): decode the on-disk run list and
hand the raw `(offset, len)` byte pairs to `load_runs`; the panics inside
`load_runs` surface as `.crash`.  The loop is run with fuel `bs.length`, which
can never be exhausted because every iteration consumes at least the one-byte
run header. -/
def parse_run_list (bs : List Nat) (clusterSize : Nat) (size : Nat) :
    Outcome (List DataRun) :=
  match parseRunLoop bs.length bs 0 clusterSize with
  | .ioError => .ioError
  | .crash => .crash
  | .ok pairs =>
    match load_runs pairs size with
    | none => .crash
    | some runs => .ok runs

/-- Run a sequence of seeks on a `RunReader`, recording after each one the
returned virtual position and the volume's physical position (the pair the
repository's `test_run_reader_seek` asserts on). -/
def seekTrace : RunReader → List SeekFrom → Option (List (Nat × Nat))
  | _, [] => some []
  | r, sf :: rest =>
    match rrSeek r sf with
    | none => none
    | some (v, r') =>
      match seekTrace r' rest with
      | none => none
      | some tl => some ((v, r'.volume.pos) :: tl)

/-- Read `k` little-endian bytes at position `pos` of an in-memory record
(`read_u16::<LE>` / `read_u32::<LE>` on a `Cursor`); `none` is `UnexpectedEof`. -/
def readLE (buf : List Nat) (pos k : Nat) : Option Nat :=
  if pos + k ≤ buf.length then some (leNat ((buf.drop pos).take k)) else none

/-- `MFTHeader` (src/ntfs/metadata.rs). -/
structure MFTHeader where
  fixup_offset : Nat
  fixup_entries : Nat
  attr_offset : Nat
  flags : Nat
  used_size : Nat
  alloc_size : Nat
deriving DecidableEq, Repr

/-- `parse_mft_header` (src/ntfs/metadata.rs): read the 4-byte signature and
`assert_eq!` it against `b"FILE"` — a mismatch is a panic (`.crash`), not an
error return — then read the header fields.  Truncated input surfaces as the
`io` error of the failed read (`.ioError`). -/
def parse_mft_header (buf : List Nat) : Outcome MFTHeader :=
  if buf.length < 4 then .ioError
  else if buf.take 4 ≠ [70, 73, 76, 69] then .crash
  else
    match readLE buf 4 2, readLE buf 6 2 with
    | some fixupOffset, some fixupEntries =>
      match readLE buf 20 2, readLE buf 22 2, readLE buf 24 4, readLE buf 28 4 with
      | some attrOffset, some flags, some usedSize, some allocSize =>
        .ok ⟨fixupOffset, fixupEntries, attrOffset, flags, usedSize, allocSize⟩
      | _, _, _, _ => .ioError
    | _, _ => .ioError

/-- `buf[i..i + 2]`: panics (`none`) when the slice is out of range. -/
def slice2 (buf : List Nat) (i : Nat) : Option (List Nat) :=
  if i + 2 ≤ buf.length then some ((buf.drop i).take 2) else none

/-- `buf[i..i + 2].copy_from_slice(v)` for a two-byte `v`. -/
def writeSlice2 (buf : List Nat) (i : Nat) (v : List Nat) : List Nat :=
  (buf.set i (v.getD 0 0)).set (i + 1) (v.getD 1 0)

/-- The loop of `fixup_buf`, at iteration `entry` with `k` iterations left:
read the stored original bytes at `offset + (entry - 1) * 2`, check that the
sector's trailing two bytes equal the fixup signature (`assert_eq!`, panic
`none` on mismatch), and overwrite them with the stored bytes.
`sub?` models the `usize` underflow of `sector_end - 2`. -/
def fixupGo (ss off : Nat) (sig : List Nat) : Nat → Nat → List Nat → Option (List Nat)
  | _, 0, buf => some buf
  | entry, k + 1, buf =>
    match slice2 buf (off + (entry - 1) * 2) with
    | none => none
    | some orig =>
      match sub? (entry * ss) 2 with
      | none => none
      | some i =>
        match slice2 buf i with
        | none => none
        | some check =>
          if check = sig then fixupGo ss off sig (entry + 1) k (writeSlice2 buf i orig)
          else none

/-- `fixup_buf` (src/ntfs/metadata.rs), taking the `fixup_offset` and
`fixup_entries` fields of the parsed header: verify and restore the fixup
array over `buf`.  All failures are `assert`/indexing panics (`none`). -/
def fixup_buf (sectorSize fixupOffset fixupEntries : Nat) (buf : List Nat) :
    Option (List Nat) :=
  match slice2 buf fixupOffset with
  | none => none
  | some sig => fixupGo sectorSize fixupOffset sig 1 (fixupEntries - 1) buf

/-- The state of `Volume<T>`, i.e. a `BufReader` over the raw device: the
device bytes, the underlying stream position, the buffered bytes, the cursor
inside the buffer, and the buffer capacity (1 MiB in `open_volume`). -/
structure BufReader where
  dev : List Nat
  devPos : Nat
  buf : List Nat
  pos : Nat
  cap : Nat
deriving DecidableEq, Repr

/-- `BufReader::stream_position`: underlying position minus unconsumed buffer. -/
def BufReader.streamPosition (b : BufReader) : Nat :=
  b.devPos - (b.buf.length - b.pos)

/-- `BufReader::fill_buf`: return the unconsumed buffer, refilling from the
device (up to `cap` bytes) when it is empty. -/
def BufReader.fillBuf (b : BufReader) : List Nat × BufReader :=
  if b.pos < b.buf.length then (b.buf.drop b.pos, b)
  else
    let chunk := (b.dev.drop b.devPos).take b.cap
    (chunk, { b with buf := chunk, pos := 0, devPos := b.devPos + chunk.length })

/-- `BufReader::seek_relative`: move inside the buffer when possible, otherwise
seek the underlying device and drop the buffer; a negative resulting absolute
position is an `io` error of the underlying seek (`none`). -/
def BufReader.seekRelative (b : BufReader) (off : Int) : Option BufReader :=
  let t : Int := (b.pos : Int) + off
  if 0 ≤ t ∧ t ≤ (b.buf.length : Int) then some { b with pos := t.toNat }
  else
    let abs : Int := (b.streamPosition : Int) + off
    if 0 ≤ abs then some { b with buf := [], pos := 0, devPos := abs.toNat }
    else none

/-- `self.inner.seek(SeekFrom::Start x)`: discard the buffer, move the device. -/
def BufReader.seekStart (b : BufReader) (x : Nat) : BufReader :=
  { b with buf := [], pos := 0, devPos := x }

/-- The `SeekFrom::Start` arm of `<Volume as Seek>::seek`
(src/ntfs/content.rs): reuse the buffer when the target is within its forward
or retained backward window, otherwise seek the device to the previous
512-byte boundary, refill, and advance by `x % 512`. -/
def volumeSeekStart (b : BufReader) (x : Nat) : Option (Nat × BufReader) :=
  let curr := b.streamPosition
  let filled := b.fillBuf
  let bufLen := filled.1.length
  let b₁ := filled.2
  if curr < x ∧ x - curr ≤ bufLen then
    (b₁.seekRelative ((x : Int) - curr)).map fun b₂ => (b₂.streamPosition, b₂)
  else if x < curr ∧ curr - x ≤ b₁.cap - bufLen then
    (b₁.seekRelative (-((curr : Int) - (x : Int)))).map fun b₂ => (b₂.streamPosition, b₂)
  else
    let b₂ := b₁.seekStart (x - x % 512)
    let b₃ := b₂.fillBuf.2
    (b₃.seekRelative (x % 512)).map fun b₄ => (b₄.streamPosition, b₄)

/-- `<Volume as Seek>::seek` (src/ntfs/content.rs): `Start` and `Current` are
supported; `SeekFrom::End` hits `panic!("Cannot seek from end of volume")`,
modelled as `none`.  A negative `Current` target panics in the
`u64::try_from(offset).unwrap()`. -/
def volumeSeek (b : BufReader) (sf : SeekFrom) : Option (Nat × BufReader) :=
  match sf with
  | .start x => volumeSeekStart b x
  | .current x =>
    match intToNat? ((b.streamPosition : Int) + x) with
    | none => none
    | some o => volumeSeekStart b o
  | .fromEnd _ => none

/-- A synthetic but well-formed 1024-byte MFT record body for exercising
`fixup_buf` with `sector_size = 512`, `fixup_offset = 48`,
`fixup_entries = 3`: the fixup signature `AA AA` sits at offset 48, the two
stored original values `BB BB` and `CC CC` follow it at offsets 50 and 52, and
both sectors end with the signature, as required on disk. -/
def fixupTestRecord : List Nat :=
  (List.range 1024).map fun i =>
    if i = 48 ∨ i = 49 then 0xAA
    else if i = 50 ∨ i = 51 then 0xBB
    else if i = 52 ∨ i = 53 then 0xCC
    else if i = 510 ∨ i = 511 then 0xAA
    else if i = 1022 ∨ i = 1023 then 0xAA
    else 0

/-- Pure structural decode of a run list: the sequence of
(signed cluster delta, cluster length) records, independent of the offset
accumulator; `none` when the stream is truncated or a header nibble exceeds 8
(i.e. exactly when `parse_run_list` cannot reach the `load_runs` stage for a
structural reason).  Runs on the same fuel discipline as `parseRunLoop`. -/
def decodeRecsF : Nat → List Nat → Option (List (Int × Nat))
  | _, [] => none
  | 0, _ :: _ => none
  | fuel + 1, b :: rest =>
    if b = 0 then some []
    else
      let lengthLength := (255 >>> 4) &&& b
      let offsetLength := b >>> 4
      if 8 < lengthLength then none
      else
        match takeExact lengthLength rest with
        | none => none
        | some (lenBytes, rest₁) =>
          if 8 < offsetLength then none
          else
            match takeExact offsetLength rest₁ with
            | none => none
            | some (offBytes, rest₂) =>
              let d := toI64 (leNat (padTo8 offBytes (signFill true offBytes)))
              let l := leNat (padTo8 lenBytes (signFill false lenBytes))
              (decodeRecsF fuel rest₂).map fun recs => (d, l) :: recs

/-- The decoded records of a run-list byte stream. -/
def decodeRecs (bs : List Nat) : Option (List (Int × Nat)) :=
  decodeRecsF bs.length bs

/-- Every cumulative cluster offset (prefix sum of the signed deltas, started
at `off`) is non-negative. -/
def prefixOk : Int → List (Int × Nat) → Bool
  | _, [] => true
  | off, (d, _) :: rest => decide (0 ≤ off + d) && prefixOk (off + d) rest

/-- The `(byte_offset, byte_len)` pairs `parse_run_list` builds from decoded
records when no prefix sum is negative. -/
def pairsOf (cs : Nat) : Int → List (Int × Nat) → List (Nat × Nat)
  | _, [] => []
  | off, (d, l) :: rest => ((off + d).toNat * cs, l * cs) :: pairsOf cs (off + d) rest

/-- `Content` (src/ntfs/content.rs). -/
inductive Content where
  | resident (data : List Nat)
  | nonResident (runStartVcn runEndVcn allocSize size : Nat) (runs : List DataRun)
deriving DecidableEq, Repr

/-- `ContentReader` (src/ntfs/content.rs). -/
inductive ContentReader where
  | resident (inner : Cursor)
  | nonResident (inner : RunReader)
deriving DecidableEq, Repr

/-- `Content::reader`: a fresh in-memory cursor for resident content, a fresh
`RunReader` over the given volume for non-resident content. -/
def Content.reader (c : Content) (volume : Cursor) : ContentReader :=
  match c with
  | .resident data => .resident ⟨data, 0⟩
  | .nonResident _ _ _ _ runs => .nonResident (RunReader.new volume runs)

/-- `ContentReader::size`. -/
def ContentReader.size : ContentReader → Nat
  | .resident c => c.data.length
  | .nonResident r => r.size

/-- `<ContentReader as Read>::read` with a caller buffer of `n` bytes. -/
def crRead : ContentReader → Nat → Option (List Nat × ContentReader)
  | .resident c, n =>
    let res := cursorRead c n
    some (res.1, .resident res.2)
  | .nonResident r, n => (rrRead r n).map fun p => (p.1, .nonResident p.2)

/-- Read repeatedly with a buffer of `b` bytes until a read returns no bytes,
collecting everything read (`fuel` bounds the iterations). -/
def crReadAll (b : Nat) : Nat → ContentReader → Option (List Nat × ContentReader)
  | 0, _ => none
  | fuel + 1, cr =>
    match crRead cr b with
    | none => none
    | some (bs, cr') =>
      if bs.isEmpty then some ([], cr')
      else
        match crReadAll b fuel cr' with
        | none => none
        | some (rest, cr'') => some (bs ++ rest, cr'')

/-- Well-formedness of a `Content` over a volume: resident content is always
well formed; a non-resident run list must be non-empty, contiguous from
virtual offset 0 (the shape `load_runs` produces), and physically inside the
volume. -/
def contentWF : Content → Cursor → Bool
  | .resident _, _ => true
  | .nonResident _ _ _ _ runs, vol =>
    (!runs.isEmpty) && chainedB 0 runs && coveredB vol.data.length runs

/-- Invariant of a reachable `RunReader`: `size` is the sum of the run
lengths, the runs are contiguous from 0, non-empty, physically inside the
volume, the current run index is in range with `pos` inside the run, and —
except at virtual position 0, where `read` re-seeks unconditionally — the
volume cursor agrees with the reader's physical position. -/
def RInv (r : RunReader) : Prop :=
  r.size = sumLens r.runs ∧ chainedB 0 r.runs = true ∧ r.runs ≠ [] ∧
  coveredB r.volume.data.length r.runs = true ∧
  ∃ dr, r.runs.get? r.state.run = some dr ∧ r.state.pos ≤ dr.len ∧
    (dr.virt_offset + r.state.pos ≠ 0 → r.volume.pos = dr.offset + r.state.pos)

/-- Invariant of a reachable `ContentReader`. -/
def CInv : ContentReader → Prop
  | .resident c => c.pos ≤ c.data.length
  | .nonResident r => RInv r

/-- Logical (virtual) position of a `ContentReader`. -/
def cvpos : ContentReader → Option Nat
  | .resident c => some c.pos
  | .nonResident r => r.virt_position

/-! ## General lemmas -/

theorem takeExact_length {n : Nat} {l xs rest : List Nat}
    (h : takeExact n l = some (xs, rest)) : xs.length = n ∧ rest.length + n = l.length := by
  induction n generalizing l xs rest with
  | zero => simp [takeExact] at h; simp [h.1, h.2]
  | succ n ih =>
    match l with
    | [] => simp [takeExact] at h
    | a :: l =>
      simp only [takeExact] at h
      match htake : takeExact n l with
      | none => rw [htake] at h; simp at h
      | some (xs', rest') =>
        rw [htake] at h
        simp at h
        obtain ⟨hxs, hrest⟩ := h
        have := ih htake
        subst hxs hrest
        simp [this.1]
        omega

theorem sub?_eq_some {a b c : Nat} : sub? a b = some c ↔ b ≤ a ∧ c = a - b := by
  unfold sub?
  split <;> simp_all <;> omega

theorem sub?_eq_none {a b : Nat} : sub? a b = none ↔ a < b := by
  unfold sub?
  split <;> simp_all

/-! ## Claim theorems: concrete scenarios -/

/-- C4: decoding the run-list bytes `21 10 00 01 11 20 E0 00` with
`cluster_size = 1` and `real_size = 48` yields exactly two runs:
run 0 with `byte_offset = 256`, `virt_offset = 0`, `byte_len = 16`, and run 1
with `byte_offset = 224 = 256 - 32` (the offset byte `E0` is sign-extended to
the negative two's-complement delta `-32` and added to the running absolute
offset), `virt_offset = 16`, `byte_len = 32`. -/
theorem runlist_decode_example :
    parse_run_list [0x21, 0x10, 0x00, 0x01, 0x11, 0x20, 0xE0, 0x00] 1 48 =
      .ok [⟨256, 0, 16⟩, ⟨224, 16, 32⟩] := by decide

/-- C2: for a `RunReader` over a device holding the ASCII bytes
`"4560123XXX789"`, with runs `(offset 3, len 4), (offset 0, len 3),
(offset 10, len 3)` and `size = 10`, reading 10 bytes from virtual offset 0
(via `read_exact`, which re-seeks the device to the current run's physical
position at the start of reading and whenever a run is exhausted, and obtains
at most what remains in the current run per `read` call) yields exactly the
ASCII bytes `"0123456789"`. -/
theorem runreader_read_across_runs :
    (load_runs [(3, 4), (0, 3), (10, 3)] 10).map (fun rs =>
      (rrReadExact 20
        (RunReader.new ⟨[52, 53, 54, 48, 49, 50, 51, 88, 88, 88, 55, 56, 57], 0⟩ rs)
        10).map (·.1)) =
    some (some [48, 49, 50, 51, 52, 53, 54, 55, 56, 57]) := by decide

/-- C3: for a `RunReader` with runs `(1000,1000), (3000,2000), (0,1000)` and
`size = 4000`, the seek sequence `Start 500`, `Current 500`, `Current (-1)`,
`End (-100)` produces the (virtual, physical) position pairs
`(500, 1500), (1000, 3000), (999, 1999), (3900, 900)`. -/
theorem runreader_seek_trace :
    (load_runs [(1000, 1000), (3000, 2000), (0, 1000)] 4000).map (fun rs =>
      seekTrace (RunReader.new ⟨[], 0⟩ rs)
        [.start 500, .current 500, .current (-1), .fromEnd (-100)]) =
    some (some [(500, 1500), (1000, 3000), (999, 1999), (3900, 900)]) := by decide

/-- C7: for every state of the block device and every offset, a seek with
`whence = End` fails (the source panics with "Cannot seek from end of
volume"); it never returns a new position. -/
theorem volume_seek_end_fails (b : BufReader) (x : Int) :
    volumeSeek b (.fromEnd x) = none := rfl

/-- C5 (code bug): on a 1024-byte record with `sector_size = 512`,
`fixup_offset = 48`, `fixup_entries = 3`, fixup signature `AA AA`, stored
original values `BB BB` (for sector 1, at offset 50) and `CC CC` (for sector
2, at offset 52), and both sectors ending in the signature, one application of
`fixup_buf` succeeds but leaves the first sector's last two bytes equal to the
*signature* `AA AA` (read from `offset + 0`) and the second sector's last two
bytes equal to `BB BB` — the original belonging to sector 1 — because the
source reads each stored original from `offset + (entry - 1) * 2`, one 2-byte
slot too early.  The claimed behaviour (each sector's last two bytes equal its
corresponding original from the fixup array) would give `BB BB` and `CC CC`
here. -/
theorem fixup_restores_wrong_slot :
    (fixup_buf 512 48 3 fixupTestRecord).map (fun out =>
      (out.get? 510, out.get? 511, out.get? 1022, out.get? 1023)) =
    some (some 0xAA, some 0xAA, some 0xBB, some 0xBB) := by decide

/-- C9 (counterexample): parsing a 1024-byte record whose signature is not
`"FILE"` does not return an error result for the entry: the
`assert_eq!(&sig_buf, b"FILE")` in `parse_mft_header` panics. -/
theorem header_bad_signature_is_panic :
    parse_mft_header (List.replicate 1024 0) = .crash := by decide

/-- C9 (amended): truncated input is reported through an error result
(`read_exact` fails), but a record whose signature differs from `"FILE"` makes
`parse_mft_header` panic instead of returning an error. -/
theorem header_failure_modes (buf : List Nat) :
    (4 ≤ buf.length → buf.take 4 ≠ [70, 73, 76, 69] → parse_mft_header buf = .crash) ∧
    (buf.length < 4 → parse_mft_header buf = .ioError) := by
  constructor
  · intro h4 hsig
    unfold parse_mft_header
    rw [if_neg (by omega), if_pos hsig]
  · intro h4
    unfold parse_mft_header
    rw [if_pos h4]

/-- Witness for C9's amended theorem at concrete inputs. -/
theorem header_failure_modes_witness :
    parse_mft_header (List.replicate 1024 1) = .crash ∧
    parse_mft_header [70, 73] = .ioError :=
  ⟨(header_failure_modes (List.replicate 1024 1)).1 (by decide) (by decide),
   (header_failure_modes [70, 73]).2 (by decide)⟩

/-- C8 (counterexample): a seek to position 11 on a non-resident reader of
size 10 is not rejected — it succeeds and returns the out-of-range virtual
position 11. -/
theorem seek_beyond_size_accepted_example :
    (RunReader.new ⟨List.replicate 20 0, 0⟩ [⟨0, 0, 10⟩]).size = 10 ∧
    (rrSeek (RunReader.new ⟨List.replicate 20 0, 0⟩ [⟨0, 0, 10⟩]) (.start 11)).map (·.1) =
      some 11 := by decide

/-! ## Run-list shape lemmas -/

theorem chainedB_cons {v : Nat} {dr : DataRun} {rest : List DataRun} :
    chainedB v (dr :: rest) = true ↔
      dr.virt_offset = v ∧ chainedB (v + dr.len) rest = true := by
  simp [chainedB]

theorem sumLens_cons (dr : DataRun) (rest : List DataRun) :
    sumLens (dr :: rest) = dr.len + sumLens rest := by
  simp [sumLens]

theorem sumLens_nil : sumLens [] = 0 := rfl

theorem sumLens_append (l₁ l₂ : List DataRun) :
    sumLens (l₁ ++ l₂) = sumLens l₁ + sumLens l₂ := by
  simp [sumLens]

/-- Locating a virtual position among contiguous runs: the index the source
computes (first run with `virt_offset > p`, defaulting to the list length) is
at least 1, and the run before it contains `p` (strictly, whenever `p` is
strictly below the total length; weakly at the total length). -/
theorem chained_locate {runs : List DataRun} {v p : Nat}
    (hch : chainedB v runs = true) (hne : runs ≠ []) (hvp : v ≤ p) :
    1 ≤ runs.findIdx (fun x => decide (p < x.virt_offset)) ∧
    ∃ dr, runs.get? (runs.findIdx (fun x => decide (p < x.virt_offset)) - 1) = some dr ∧
      dr.virt_offset ≤ p ∧
      (p < v + sumLens runs → p < dr.virt_offset + dr.len) ∧
      (p ≤ v + sumLens runs → p ≤ dr.virt_offset + dr.len) := by
  induction runs generalizing v with
  | nil => exact absurd rfl hne
  | cons dr rest ih =>
    obtain ⟨hv, hch'⟩ := chainedB_cons.mp hch
    have hpred : decide (p < dr.virt_offset) = false := by
      simp [hv]; omega
    rw [List.findIdx_cons, hpred, cond_false]
    cases rest with
    | nil =>
      rw [List.findIdx_nil]
      refine ⟨le_refl 1, dr, rfl, by omega, ?_, ?_⟩ <;>
        · intro h
          rw [sumLens_cons] at h
          simp [sumLens] at h
          omega
    | cons dr₂ rest' =>
      obtain ⟨hv₂, _⟩ := chainedB_cons.mp hch'
      by_cases hcase : p < v + dr.len
      · have hpred₂ : decide (p < dr₂.virt_offset) = true := by
          simp [hv₂]; omega
        rw [List.findIdx_cons, hpred₂, cond_true]
        exact ⟨le_refl 1, dr, rfl, by omega, fun _ => by omega, fun _ => by omega⟩
      · obtain ⟨h1, dr', hget, hle', hlt', hle''⟩ := ih hch' (by simp) (by omega)
        rcases Nat.exists_eq_add_of_le h1 with ⟨k, hk⟩
        constructor
        · omega
        · refine ⟨dr', ?_, hle', ?_, ?_⟩
          · have hidx :
                List.findIdx (fun x => decide (p < x.virt_offset)) (dr₂ :: rest') + 1 - 1 =
                  k + 1 := by omega
            rw [hidx, List.get?_cons_succ]
            have hk' :
                List.findIdx (fun x => decide (p < x.virt_offset)) (dr₂ :: rest') - 1 = k := by
              omega
            rw [hk'] at hget
            exact hget
          · intro h
            apply hlt'
            rw [sumLens_cons] at h
            omega
          · intro h
            apply hle''
            rw [sumLens_cons] at h
            omega

theorem chained_get_bound {runs : List DataRun} {v i : Nat} {dr : DataRun}
    (hch : chainedB v runs = true) (hget : runs.get? i = some dr) :
    v ≤ dr.virt_offset ∧ dr.virt_offset + dr.len ≤ v + sumLens runs := by
  induction runs generalizing v i with
  | nil => simp at hget
  | cons a rest ih =>
    obtain ⟨hv, hch'⟩ := chainedB_cons.mp hch
    cases i with
    | zero =>
      simp at hget
      subst hget
      rw [sumLens_cons]
      omega
    | succ i =>
      rw [List.get?_cons_succ] at hget
      have := ih hch' hget
      rw [sumLens_cons]
      omega

/-- `state_for` on a contiguous non-empty run list always succeeds and lands
in the run containing `p` (with the in-run offset `q` strictly below the run
length while `p` is strictly below the total, and at most the run length when
`p` is at most the total). -/
theorem state_for_chained {r : RunReader} (p : Nat)
    (hch : chainedB 0 r.runs = true) (hne : r.runs ≠ []) :
    ∃ i q dr, r.state_for p = some ⟨i, q⟩ ∧ r.runs.get? i = some dr ∧
      dr.virt_offset + q = p ∧
      (p < sumLens r.runs → q < dr.len) ∧
      (p ≤ sumLens r.runs → q ≤ dr.len) := by
  obtain ⟨h1, dr, hget, hle, hlt', hle'⟩ := chained_locate hch hne (Nat.zero_le p)
  refine ⟨_, p - dr.virt_offset, dr, ?_, hget, by omega, by omega, by omega⟩
  unfold RunReader.state_for
  rw [if_neg (by omega), hget]
  simp [sub?, hle]

/-- `RunReader::seek(SeekFrom::Start p)` on a contiguous non-empty run list
always succeeds, returns `p` itself, and moves the volume cursor to
`runs[i].offset + q` for the located state `(i, q)`. -/
theorem rrSeek_start {r : RunReader} (p : Nat)
    (hch : chainedB 0 r.runs = true) (hne : r.runs ≠ []) :
    ∃ i q dr, r.runs.get? i = some dr ∧ dr.virt_offset + q = p ∧
      (p < sumLens r.runs → q < dr.len) ∧ (p ≤ sumLens r.runs → q ≤ dr.len) ∧
      rrSeek r (.start p) = some (p,
        { r with state := ⟨i, q⟩, volume := ⟨r.volume.data, dr.offset + q⟩ }) := by
  obtain ⟨i, q, dr, hsf, hget, hvq, hlt, hle⟩ := state_for_chained p hch hne
  refine ⟨i, q, dr, hget, hvq, hlt, hle, ?_⟩
  simp only [rrSeek, RunReader.seek_offset]
  rw [hsf]
  simp only [RunReader.position, RunReader.virt_position, hget, Option.map_some',
    cursorSeekStart]
  rw [hvq]

/-- C8 (amended): a seek to a virtual position strictly greater than `size` on
a non-resident reader with a contiguous non-empty run list is not rejected:
`seek` succeeds and returns the requested out-of-range position (placing the
state in the last run with an in-run offset past its length); no assertion or
out-of-range error is raised at seek time. -/
theorem seek_beyond_size_not_rejected (r : RunReader) (p : Nat)
    (hch : chainedB 0 r.runs = true) (hne : r.runs ≠ [])
    (hp : r.size < p) :
    ∃ r', rrSeek r (.start p) = some (p, r') := by
  obtain ⟨i, q, dr, _, _, _, _, hseek⟩ := rrSeek_start p hch hne
  exact ⟨_, hseek⟩

/-- Witness for C8's amended theorem: a concrete reader of size 10 accepts a
seek to 11. -/
theorem seek_beyond_size_not_rejected_witness :
    ∃ r', rrSeek (RunReader.new ⟨List.replicate 20 0, 0⟩ [⟨0, 0, 10⟩]) (.start 11) =
      some (11, r') :=
  seek_beyond_size_not_rejected _ 11 (by decide) (by decide) (by decide)

theorem buildRunsAux_snd (pairs : List (Nat × Nat)) (v : Nat) :
    (buildRunsAux pairs v).2 = v + (pairs.map (·.2)).sum := by
  induction pairs generalizing v with
  | nil => simp [buildRunsAux]
  | cons p rest ih =>
    obtain ⟨o, l⟩ := p
    simp [buildRunsAux, ih]
    omega

theorem buildRunsAux_sumLens (pairs : List (Nat × Nat)) (v : Nat) :
    sumLens (buildRunsAux pairs v).1 = (pairs.map (·.2)).sum := by
  induction pairs generalizing v with
  | nil => simp [buildRunsAux, sumLens]
  | cons p rest ih =>
    obtain ⟨o, l⟩ := p
    simp [buildRunsAux, sumLens_cons, ih]

theorem buildRunsAux_chained (pairs : List (Nat × Nat)) (v : Nat) :
    chainedB v (buildRunsAux pairs v).1 = true := by
  induction pairs generalizing v with
  | nil => simp [buildRunsAux, chainedB]
  | cons p rest ih =>
    obtain ⟨o, l⟩ := p
    simp only [buildRunsAux, chainedB_cons]
    exact ⟨by trivial, ih (v + l)⟩

theorem buildRunsAux_fst_eq_nil (pairs : List (Nat × Nat)) (v : Nat) :
    (buildRunsAux pairs v).1 = [] ↔ pairs = [] := by
  cases pairs with
  | nil => simp [buildRunsAux]
  | cons p rest =>
    obtain ⟨o, l⟩ := p
    simp [buildRunsAux]

theorem chainedB_append_singleton {l : List DataRun} {a : DataRun} {v : Nat} :
    chainedB v (l ++ [a]) = true ↔
      chainedB v l = true ∧ a.virt_offset = v + sumLens l := by
  induction l generalizing v with
  | nil => simp [chainedB, sumLens]
  | cons dr rest ih =>
    rw [List.cons_append, chainedB_cons, chainedB_cons, ih, sumLens_cons]
    constructor
    · rintro ⟨h1, h2, h3⟩
      exact ⟨⟨h1, h2⟩, by omega⟩
    · rintro ⟨⟨h1, h2⟩, h3⟩
      exact ⟨h1, h2, by omega⟩

/-- Shape of a successful `load_runs`: the built run list is non-empty, the
raw lengths overshoot `size` by at most the final run, and the result is the
built list with the final run trimmed by the slack. -/
theorem load_runs_eq {pairs : List (Nat × Nat)} {size : Nat} {runs : List DataRun}
    (h : load_runs pairs size = some runs) :
    ∃ last, (buildRunsAux pairs 0).1.getLast? = some last ∧
      size ≤ (buildRunsAux pairs 0).2 ∧
      (buildRunsAux pairs 0).2 - size ≤ last.len ∧
      runs = (buildRunsAux pairs 0).1.dropLast ++
        [⟨last.offset, last.virt_offset, last.len - ((buildRunsAux pairs 0).2 - size)⟩] := by
  unfold load_runs at h
  split at h
  · exact absurd h (by simp)
  · rename_i slack hsub
    split at h
    · exact absurd h (by simp)
    · rename_i last hlast
      split at h
      · exact absurd h (by simp)
      · rename_i fixedLen hfix
        obtain ⟨hle, hslack⟩ := sub?_eq_some.mp hsub
        obtain ⟨hle', hfixed⟩ := sub?_eq_some.mp hfix
        simp only [Option.some_inj] at h
        subst hslack hfixed
        exact ⟨last, hlast, hle, hle', h.symm⟩

theorem load_runs_spec {pairs : List (Nat × Nat)} {size : Nat} {runs : List DataRun}
    (h : load_runs pairs size = some runs) :
    sumLens runs = size ∧ chainedB 0 runs = true ∧ runs ≠ [] := by
  obtain ⟨last, hlast, hle, hle', hruns⟩ := load_runs_eq h
  have hsplit := List.dropLast_append_getLast? last hlast
  have hch : chainedB 0 (buildRunsAux pairs 0).1 = true := buildRunsAux_chained pairs 0
  rw [← hsplit] at hch
  obtain ⟨hchD, hvirt⟩ := chainedB_append_singleton.mp hch
  have hsum : sumLens (buildRunsAux pairs 0).1 = (buildRunsAux pairs 0).2 := by
    rw [buildRunsAux_sumLens, buildRunsAux_snd]
    omega
  have hsum' : sumLens (buildRunsAux pairs 0).1.dropLast + last.len =
      (buildRunsAux pairs 0).2 := by
    have h2 := congrArg sumLens hsplit
    rw [sumLens_append, sumLens_cons, sumLens_nil] at h2
    omega
  refine ⟨?_, ?_, by simp [hruns]⟩
  · rw [hruns, sumLens_append, sumLens_cons, sumLens_nil]
    have hlen : (⟨last.offset, last.virt_offset,
        last.len - ((buildRunsAux pairs 0).2 - size)⟩ : DataRun).len =
        last.len - ((buildRunsAux pairs 0).2 - size) := rfl
    rw [hlen]
    omega
  · rw [hruns]
    exact chainedB_append_singleton.mpr ⟨hchD, hvirt⟩

/-- C1: every run list produced by a successful `parse_run_list` (the decoder
followed by `load_runs`) partitions `[0, real_size)` contiguously: the byte
lengths sum to `real_size` exactly (the last run having been trimmed by the
cluster-granular slack), and the virtual offsets start at 0 and satisfy
`virt_offset[i+1] = virt_offset[i] + byte_len[i]`. -/
theorem runlist_partition (bs : List Nat) (cs size : Nat) (runs : List DataRun)
    (h : parse_run_list bs cs size = .ok runs) :
    sumLens runs = size ∧ chainedB 0 runs = true ∧ runs ≠ [] := by
  unfold parse_run_list at h
  split at h
  · exact absurd h (by simp)
  · exact absurd h (by simp)
  · rename_i pairs hp
    split at h
    · exact absurd h (by simp)
    · rename_i rs hl
      simp only [Outcome.ok.injEq] at h
      subst h
      exact load_runs_spec hl

/-- Witness for C1 at a concrete input: one raw run of 16 bytes trimmed to a
`real_size` of 14. -/
theorem runlist_partition_witness :
    sumLens [⟨1024, 0, 14⟩] = 14 ∧ chainedB 0 [⟨1024, 0, 14⟩] = true ∧
      ([⟨1024, 0, 14⟩] : List DataRun) ≠ [] :=
  runlist_partition [0x21, 0x08, 0x00, 0x02, 0x00] 2 14 [⟨1024, 0, 14⟩] (by decide)

theorem pairsOf_sumLens (cs : Nat) (off : Int) (recs : List (Int × Nat)) :
    ((pairsOf cs off recs).map (·.2)).sum = ((recs.map (·.2)).sum) * cs := by
  induction recs generalizing off with
  | nil => simp [pairsOf]
  | cons p rest ih =>
    obtain ⟨d, l⟩ := p
    simp [pairsOf, ih, Nat.add_mul]

theorem load_runs_nil (size : Nat) : load_runs [] size = none := by
  unfold load_runs
  split <;> rfl

/-- Bridge between the pure record decoder and the stateful decoding loop: on
a stream that decodes, `parseRunLoop` succeeds exactly when no cumulative
offset goes negative, producing the scaled pairs, and panics otherwise. -/
theorem parseRunLoop_decode {fuel : Nat} {bs : List Nat} {recs : List (Int × Nat)}
    (h : decodeRecsF fuel bs = some recs) (off : Int) (cs : Nat) :
    parseRunLoop fuel bs off cs =
      if prefixOk off recs then .ok (pairsOf cs off recs) else .crash := by
  induction fuel generalizing bs recs off with
  | zero => cases bs <;> simp [decodeRecsF] at h
  | succ fuel ih =>
    cases bs with
    | nil => simp [decodeRecsF] at h
    | cons b rest =>
      by_cases hb : b = 0
      · subst hb
        simp [decodeRecsF] at h
        subst h
        simp [parseRunLoop, prefixOk, pairsOf]
      · simp only [decodeRecsF, if_neg hb] at h
        simp only [parseRunLoop, if_neg hb]
        split at h
        · exact absurd h (by simp)
        · rename_i hL
          rw [if_neg hL]
          split at h
          · exact absurd h (by simp)
          · rename_i lenBytes rest₁ h₁
            split at h
            · exact absurd h (by simp)
            · rename_i hO
              rw [if_neg hO]
              split at h
              · exact absurd h (by simp)
              · rename_i offBytes rest₂ h₂
                rw [Option.map_eq_some'] at h
                obtain ⟨recs', hrec, hcons⟩ := h
                subst hcons
                by_cases hneg : (0 : Int) ≤ off + toI64 (leNat (padTo8 offBytes (signFill true offBytes)))
                · simp only [intToNat?, if_pos hneg]
                  rw [ih hrec]
                  by_cases hpre :
                      prefixOk (off + toI64 (leNat (padTo8 offBytes (signFill true offBytes)))) recs' = true
                  · rw [if_pos hpre]
                    simp [prefixOk, pairsOf, hneg, hpre]
                  · have hpre' :
                        prefixOk (off + toI64 (leNat (padTo8 offBytes (signFill true offBytes)))) recs' = false := by
                      cases hx : prefixOk (off + toI64 (leNat (padTo8 offBytes (signFill true offBytes)))) recs'
                      · rfl
                      · exact absurd hx hpre
                    rw [if_neg hpre]
                    simp [prefixOk, hpre']
                · simp only [intToNat?, if_neg hneg]
                  have : decide ((0 : Int) ≤ off + toI64 (leNat (padTo8 offBytes (signFill true offBytes)))) = false := by
                    simp [hneg]
                  simp [prefixOk, this]

/-- C10: `parse_run_list` returns normally only when the decoded run list is
non-empty, every cumulative cluster offset (prefix sum of the signed deltas)
is non-negative, and the total decoded byte length is at least `real_size`;
whenever the stream decodes but one of these fails, the decoder panics
(failed `u64` conversion of a negative offset, or index/arithmetic underflow
in `load_runs`) instead of returning an error result. -/
theorem runlist_decoder_preconditions (bs : List Nat) (cs size : Nat)
    (recs : List (Int × Nat)) (h : decodeRecs bs = some recs) :
    ((∃ runs, parse_run_list bs cs size = .ok runs) →
        recs ≠ [] ∧ prefixOk 0 recs = true ∧ size ≤ ((recs.map (·.2)).sum) * cs) ∧
    ((recs = [] ∨ prefixOk 0 recs = false ∨ ((recs.map (·.2)).sum) * cs < size) →
        parse_run_list bs cs size = .crash) := by
  have h' : decodeRecsF bs.length bs = some recs := h
  have hbridge := parseRunLoop_decode h' 0 cs
  by_cases hpre : prefixOk 0 recs = true
  · have hpr : parse_run_list bs cs size =
        match load_runs (pairsOf cs 0 recs) size with
        | none => Outcome.crash
        | some rs => Outcome.ok rs := by
      unfold parse_run_list
      rw [hbridge, if_pos hpre]
    constructor
    · rintro ⟨runs, hok⟩
      rw [hpr] at hok
      match hl : load_runs (pairsOf cs 0 recs) size with
      | none => rw [hl] at hok; exact absurd hok (by simp)
      | some rs =>
        obtain ⟨last, hlast, hle, _, _⟩ := load_runs_eq hl
        refine ⟨?_, hpre, ?_⟩
        · intro hnil
          subst hnil
          simp [pairsOf, buildRunsAux] at hlast
        · rw [buildRunsAux_snd, pairsOf_sumLens] at hle
          omega
    · intro hcase
      rw [hpr]
      rcases hcase with hnil | hpf | hlt
      · subst hnil
        rw [show pairsOf cs 0 ([] : List (Int × Nat)) = [] from rfl, load_runs_nil]
      · rw [hpre] at hpf
        exact absurd hpf (by simp)
      · have hnone : load_runs (pairsOf cs 0 recs) size = none := by
          unfold load_runs
          have hs : sub? (buildRunsAux (pairsOf cs 0 recs) 0).2 size = none := by
            rw [sub?_eq_none, buildRunsAux_snd, pairsOf_sumLens]
            omega
          rw [hs]
        rw [hnone]
  · have hpreF : prefixOk 0 recs = false := by
      cases hx : prefixOk 0 recs
      · rfl
      · exact absurd hx hpre
    have hpr : parse_run_list bs cs size = .crash := by
      unfold parse_run_list
      rw [hbridge, if_neg (by simp [hpreF])]
    refine ⟨?_, fun _ => hpr⟩
    rintro ⟨runs, hok⟩
    rw [hpr] at hok
    exact absurd hok (by simp)

/-- Witness for C10 at a concrete input: the run record `11 05 FF`
(length 5 clusters, delta `-1` cluster) drives the cumulative offset
negative, so the decoder panics. -/
theorem runlist_decoder_preconditions_witness :
    decodeRecs [0x11, 0x05, 0xFF, 0x00] = some [(-1, 5)] ∧
      parse_run_list [0x11, 0x05, 0xFF, 0x00] 3 7 = .crash :=
  ⟨by decide,
   (runlist_decoder_preconditions [0x11, 0x05, 0xFF, 0x00] 3 7 [(-1, 5)] (by decide)).2
     (Or.inr (Or.inl (by decide)))⟩

theorem coveredB_mem {devLen : Nat} {runs : List DataRun} {dr : DataRun}
    (hcov : coveredB devLen runs = true) (hmem : dr ∈ runs) :
    dr.offset + dr.len ≤ devLen := by
  simp only [coveredB, List.all_eq_true, decide_eq_true_eq] at hcov
  exact hcov dr hmem

theorem RInv_vpos_le {r : RunReader} {v : Nat} (hInv : RInv r)
    (hv : r.virt_position = some v) : v ≤ r.size := by
  obtain ⟨hsize, hch, _, _, dr, hget, hpos, _⟩ := hInv
  have hb := chained_get_bound hch hget
  unfold RunReader.virt_position at hv
  rw [hget] at hv
  simp only [Option.map_some', Option.some_inj] at hv
  rw [hsize]
  omega

/-- Main step fact about `rrReadCore`: on a reader whose volume cursor sits at
the physical position of the current state, the core read yields exactly
`min b run_remaining` bytes (the volume covers the run, so the device never
comes up short), preserves the invariant, and advances the virtual position by
the bytes read. -/
theorem rrReadCore_spec {r₁ : RunReader} {b : Nat} {dr : DataRun}
    (hsize : r₁.size = sumLens r₁.runs) (hch : chainedB 0 r₁.runs = true)
    (hne : r₁.runs ≠ []) (hcov : coveredB r₁.volume.data.length r₁.runs = true)
    (hget : r₁.runs.get? r₁.state.run = some dr) (hpos : r₁.state.pos ≤ dr.len)
    (hvol : r₁.volume.pos = dr.offset + r₁.state.pos) :
    ∃ bs r', rrReadCore r₁ b = some (bs, r') ∧
      bs.length = min b (dr.len - r₁.state.pos) ∧
      RInv r' ∧
      r'.virt_position = some (dr.virt_offset + r₁.state.pos + bs.length) ∧
      r'.size = r₁.size ∧ r'.runs = r₁.runs := by
  have hrr : r₁.run_remaining = some (dr.len - r₁.state.pos) := by
    unfold RunReader.run_remaining
    rw [hget]
    simp [sub?, hpos]
  have hdev : dr.offset + dr.len ≤ r₁.volume.data.length :=
    coveredB_mem hcov (List.get?_mem hget)
  have hlen : ((cursorRead r₁.volume (min b (dr.len - r₁.state.pos))).1).length =
      min b (dr.len - r₁.state.pos) := by
    simp only [cursorRead, List.length_take, List.length_drop]
    rw [hvol]
    omega
  refine ⟨(cursorRead r₁.volume (min b (dr.len - r₁.state.pos))).1,
    { r₁ with volume := (cursorRead r₁.volume (min b (dr.len - r₁.state.pos))).2,
              state := ⟨r₁.state.run,
                r₁.state.pos + (cursorRead r₁.volume (min b (dr.len - r₁.state.pos))).1.length⟩ },
    ?_, hlen, ?_, ?_, rfl, rfl⟩
  · unfold rrReadCore
    rw [hrr]
  · refine ⟨hsize, hch, hne, ?_, dr, hget, ?_, ?_⟩
    · exact hcov
    · simp only [hlen]
      omega
    · intro _
      simp only [cursorRead, List.length_take, List.length_drop]
      rw [hvol]
      omega
  · unfold RunReader.virt_position
    simp only [hget, Option.map_some', Option.some_inj]
    omega

/-- One `RunReader::read` step from any reachable state: it succeeds, stays
within `size`, preserves the invariant, advances the virtual position by the
bytes read, makes progress whenever data remains, and reads nothing at EOF. -/
theorem rrRead_step {r : RunReader} {b v : Nat} (hb : 1 ≤ b)
    (hInv : RInv r) (hv : r.virt_position = some v) :
    ∃ bs r', rrRead r b = some (bs, r') ∧ v + bs.length ≤ r.size ∧ RInv r' ∧
      r'.virt_position = some (v + bs.length) ∧ r'.size = r.size ∧
      (v < r.size → 1 ≤ bs.length) ∧ (v = r.size → bs = []) := by
  have hvle : v ≤ r.size := RInv_vpos_le hInv hv
  obtain ⟨hsize, hch, hne, hcov, dr, hget, hpos, hsync⟩ := hInv
  have hvv : v = dr.virt_offset + r.state.pos := by
    unfold RunReader.virt_position at hv
    rw [hget] at hv
    simpa using hv.symm
  have hbound := chained_get_bound hch hget
  by_cases h0 : v = 0
  · -- re-seek branch entered because the virtual position is 0
    obtain ⟨i, q, dr₁, hget₁, hvq₁, hlt₁, hle₁, hseek⟩ := rrSeek_start v hch hne
    have hq : q ≤ dr₁.len := hle₁ (by omega)
    have hbound₁ := chained_get_bound hch hget₁
    have hcore := @rrReadCore_spec
      { r with state := ⟨i, q⟩, volume := ⟨r.volume.data, dr₁.offset + q⟩ }
      b dr₁ hsize hch hne hcov hget₁ hq rfl
    obtain ⟨bs, r', hcoreEq, hlen, hInv', hvp', hsz', hruns'⟩ := hcore
    dsimp only at hlen hvp' hsz'
    have hcond : (if v = 0 then some true
        else r.run_remaining.map fun rem => decide (rem = 0 ∧ v < r.size)) = some true :=
      if_pos h0
    have hread : rrRead r b = some (bs, r') := by
      simp only [rrRead, hv, hcond, hseek, Option.map_some']
      exact hcoreEq
    refine ⟨bs, r', hread, by omega, hInv', ?_, hsz', ?_, ?_⟩
    · rw [hvp']
      congr 1
      omega
    · intro hlt
      rw [hlen]
      have := hlt₁ (by omega)
      omega
    · intro heq
      have hlen0 : bs.length = 0 := by
        rw [hlen]
        omega
      exact List.eq_nil_of_length_eq_zero hlen0
  · have hrr : r.run_remaining = some (dr.len - r.state.pos) := by
      unfold RunReader.run_remaining
      rw [hget]
      simp [sub?, hpos]
    have hvolp : r.volume.pos = dr.offset + r.state.pos := hsync (by omega)
    by_cases hrem : dr.len - r.state.pos = 0
    · by_cases hvs : v < r.size
      · -- run exhausted, data left: re-seek to the current virtual position
        obtain ⟨i, q, dr₁, hget₁, hvq₁, hlt₁, hle₁, hseek⟩ := rrSeek_start v hch hne
        have hq : q ≤ dr₁.len := hle₁ (by omega)
        have hbound₁ := chained_get_bound hch hget₁
        have hcore := @rrReadCore_spec
          { r with state := ⟨i, q⟩, volume := ⟨r.volume.data, dr₁.offset + q⟩ }
          b dr₁ hsize hch hne hcov hget₁ hq rfl
        obtain ⟨bs, r', hcoreEq, hlen, hInv', hvp', hsz', hruns'⟩ := hcore
        dsimp only at hlen hvp' hsz'
        have hcond : (if v = 0 then some true
            else r.run_remaining.map fun rem => decide (rem = 0 ∧ v < r.size)) = some true := by
          rw [if_neg h0, hrr, Option.map_some']
          simp [hrem, hvs]
        have hread : rrRead r b = some (bs, r') := by
          simp only [rrRead, hv, hcond, hseek, Option.map_some']
          exact hcoreEq
        refine ⟨bs, r', hread, by omega, hInv', ?_, hsz', ?_, ?_⟩
        · rw [hvp']
          congr 1
          omega
        · intro _
          rw [hlen]
          have := hlt₁ (by omega)
          omega
        · intro heq
          omega
      · -- at EOF: no re-seek, the core read returns zero bytes
        have hveq : v = r.size := by omega
        have hcond : (if v = 0 then some true
            else r.run_remaining.map fun rem => decide (rem = 0 ∧ v < r.size)) = some false := by
          rw [if_neg h0, hrr, Option.map_some']
          simp [hvs]
        have hcore := @rrReadCore_spec r b dr
          hsize hch hne hcov hget hpos hvolp
        obtain ⟨bs, r', hcoreEq, hlen, hInv', hvp', hsz', hruns'⟩ := hcore
        have hread : rrRead r b = some (bs, r') := by
          simp only [rrRead, hv, hcond]
          exact hcoreEq
        have hlen0 : bs.length = 0 := by
          rw [hlen, hrem]
          omega
        refine ⟨bs, r', hread, by omega, hInv', ?_, hsz', by omega, fun _ =>
          List.eq_nil_of_length_eq_zero hlen0⟩
        rw [hvp']
        congr 1
        omega
    · -- data remains in the current run: no re-seek
      have hcond : (if v = 0 then some true
          else r.run_remaining.map fun rem => decide (rem = 0 ∧ v < r.size)) = some false := by
        rw [if_neg h0, hrr, Option.map_some']
        simp [hrem]
      have hcore := @rrReadCore_spec r b dr
        hsize hch hne hcov hget hpos hvolp
      obtain ⟨bs, r', hcoreEq, hlen, hInv', hvp', hsz', hruns'⟩ := hcore
      have hread : rrRead r b = some (bs, r') := by
        simp only [rrRead, hv, hcond]
        exact hcoreEq
      have hvs : v < r.size := by
        rw [hsize]
        omega
      refine ⟨bs, r', hread, by omega, hInv', ?_, hsz', ?_, by omega⟩
      · rw [hvp']
        congr 1
        omega
      · intro _
        rw [hlen]
        omega

theorem CInv_vpos_le {cr : ContentReader} {v : Nat} (hInv : CInv cr)
    (hv : cvpos cr = some v) : v ≤ cr.size := by
  cases cr with
  | resident c =>
    simp only [cvpos, Option.some_inj] at hv
    subst hv
    exact hInv
  | nonResident r => exact RInv_vpos_le hInv hv

/-- One `ContentReader::read` step, resident or non-resident. -/
theorem crRead_step {cr : ContentReader} {b v : Nat} (hb : 1 ≤ b)
    (hInv : CInv cr) (hv : cvpos cr = some v) :
    ∃ bs cr', crRead cr b = some (bs, cr') ∧ v + bs.length ≤ cr.size ∧ CInv cr' ∧
      cvpos cr' = some (v + bs.length) ∧ cr'.size = cr.size ∧
      (v < cr.size → 1 ≤ bs.length) ∧ (v = cr.size → bs = []) := by
  cases cr with
  | resident c =>
    simp only [cvpos, Option.some_inj] at hv
    subst hv
    have hpos : c.pos ≤ c.data.length := hInv
    have hlen : ((c.data.drop c.pos).take b).length = min b (c.data.length - c.pos) := by
      simp [List.length_take, List.length_drop]
    refine ⟨(cursorRead c b).1, .resident (cursorRead c b).2, rfl, ?_, ?_, ?_, ?_, ?_, ?_⟩
    · simp only [ContentReader.size, cursorRead]
      rw [hlen]
      omega
    · simp only [CInv, cursorRead]
      rw [hlen]
      omega
    · simp only [cvpos, cursorRead]
    · simp only [ContentReader.size, cursorRead]
    · intro hlt
      simp only [ContentReader.size] at hlt
      simp only [cursorRead]
      rw [hlen]
      omega
    · intro heq
      simp only [ContentReader.size] at heq
      simp only [cursorRead]
      apply List.eq_nil_of_length_eq_zero
      rw [hlen]
      omega
  | nonResident r =>
    obtain ⟨bs, r', hread, hle, hInv', hv', hsz, hlt, hE⟩ := rrRead_step hb hInv hv
    exact ⟨bs, .nonResident r', by simp [crRead, hread], hle, hInv', hv', hsz, hlt, hE⟩

/-- Reading repeatedly until a read returns no bytes gathers exactly the
remaining `size - v` bytes and stops at EOF, from any reachable state. -/
theorem crReadAll_spec {b : Nat} (hb : 1 ≤ b) :
    ∀ fuel (cr : ContentReader) (v : Nat), CInv cr → cvpos cr = some v →
      cr.size + 1 ≤ fuel + v →
      ∃ bs cr', crReadAll b fuel cr = some (bs, cr') ∧ bs.length + v = cr.size ∧
        CInv cr' ∧ cvpos cr' = some cr.size ∧ cr'.size = cr.size := by
  intro fuel
  induction fuel with
  | zero =>
    intro cr v hInv hv hfuel
    have := CInv_vpos_le hInv hv
    omega
  | succ fuel ih =>
    intro cr v hInv hv hfuel
    have hvle := CInv_vpos_le hInv hv
    obtain ⟨bs, cr', hread, hle, hInv', hv', hsz, hlt, hE⟩ := crRead_step hb hInv hv
    rcases Nat.eq_or_lt_of_le hvle with heq | hlt'
    · have hnil : bs = [] := hE heq
      subst hnil
      refine ⟨[], cr', ?_, by omega, hInv', ?_, hsz⟩
      · simp [crReadAll, hread]
      · rw [hv']
        simp [heq]
    · have h1 : 1 ≤ bs.length := hlt hlt'
      have hfuel' : cr'.size + 1 ≤ fuel + (v + bs.length) := by
        rw [hsz]
        omega
      obtain ⟨rest, cr'', hAll, hlen', hInv'', hv'', hsz'⟩ :=
        ih cr' (v + bs.length) hInv' hv' hfuel'
      refine ⟨bs ++ rest, cr'', ?_, ?_, hInv'', ?_, ?_⟩
      · have hbs : bs.isEmpty = false := by
          cases bs with
          | nil => simp at h1
          | cons a l => rfl
        simp [crReadAll, hread, hbs, hAll]
      · simp only [List.length_append]
        omega
      · rw [hv'', hsz]
      · rw [hsz', hsz]

/-- C6: for every `ContentReader` built by `Content::reader` over a
well-formed content (resident, or non-resident with its run list non-empty,
contiguous from 0, and physically inside the volume), reading sequentially
from offset 0 with any non-empty buffer until a read returns no bytes yields
exactly `size()` bytes, and a further read at `size()` returns 0 bytes;
reading never yields bytes beyond `size()`. -/
theorem content_read_roundtrip (c : Content) (vol : Cursor) (b fuel : Nat)
    (hb : 1 ≤ b) (hwf : contentWF c vol = true)
    (hfuel : (Content.reader c vol).size + 1 ≤ fuel) :
    ∃ bs cr', crReadAll b fuel (Content.reader c vol) = some (bs, cr') ∧
      bs.length = (Content.reader c vol).size ∧
      ∃ cr'', crRead cr' b = some ([], cr'') := by
  have hstart : CInv (Content.reader c vol) ∧ cvpos (Content.reader c vol) = some 0 := by
    cases c with
    | resident data => exact ⟨Nat.zero_le _, rfl⟩
    | nonResident a₁ a₂ a₃ a₄ runs =>
      simp only [contentWF, Bool.and_eq_true, Bool.not_eq_true'] at hwf
      obtain ⟨⟨hne, hch⟩, hcov⟩ := hwf
      have hne' : runs ≠ [] := by
        cases runs with
        | nil => simp at hne
        | cons a l => simp
      obtain ⟨dr₀, rest₀, hcons⟩ : ∃ dr₀ rest₀, runs = dr₀ :: rest₀ := by
        cases runs with
        | nil => exact absurd rfl hne'
        | cons a l => exact ⟨a, l, rfl⟩
      have hv0 : dr₀.virt_offset = 0 := by
        rw [hcons] at hch
        exact (chainedB_cons.mp hch).1
      constructor
      · show RInv (RunReader.new vol runs)
        refine ⟨rfl, hch, hne', hcov, dr₀, ?_, ?_, ?_⟩
        · simp [RunReader.new, hcons]
        · simp [RunReader.new]
        · intro hne0
          exact absurd (by simp [RunReader.new, hv0]) hne0
      · show cvpos (ContentReader.nonResident (RunReader.new vol runs)) = some 0
        simp [cvpos, RunReader.virt_position, RunReader.new, hcons, hv0]
  obtain ⟨hInv, hv⟩ := hstart
  obtain ⟨bs, cr', hAll, hlen, hInv', hv', hsz⟩ :=
    crReadAll_spec hb fuel (Content.reader c vol) 0 hInv hv (by omega)
  refine ⟨bs, cr', hAll, by omega, ?_⟩
  obtain ⟨bs₂, cr'', hread, _, _, _, _, _, hE⟩ :=
    @crRead_step cr' b ((Content.reader c vol).size) hb hInv' (by rw [hv'])
  have : bs₂ = [] := hE (by rw [hsz])
  subst this
  exact ⟨cr'', hread⟩

/-- Witness for C6: the non-resident reader over the 13-byte test device with
runs `(3,0,4), (0,4,3), (10,7,3)` (size 10), read with a 4-byte buffer. -/
theorem content_read_roundtrip_witness :
    ∃ bs cr', crReadAll 4 11 (Content.reader
        (.nonResident 0 0 16 10 [⟨3, 0, 4⟩, ⟨0, 4, 3⟩, ⟨10, 7, 3⟩])
        ⟨[52, 53, 54, 48, 49, 50, 51, 88, 88, 88, 55, 56, 57], 0⟩) = some (bs, cr') ∧
      bs.length = (Content.reader
        (.nonResident 0 0 16 10 [⟨3, 0, 4⟩, ⟨0, 4, 3⟩, ⟨10, 7, 3⟩])
        ⟨[52, 53, 54, 48, 49, 50, 51, 88, 88, 88, 55, 56, 57], 0⟩).size ∧
      ∃ cr'', crRead cr' 4 = some ([], cr'') :=
  content_read_roundtrip _ _ 4 11 (by decide) (by decide) (by decide)
